import Mathlib

/-!
Verification development for the catastrophy CAZyme-classification core.

We give a shallow embedding of the core algorithms of the repository:
the per-query overlap-resolution sweep and significance filter of
`catas/parsers.py`, the counting functions of `catas/count.py`, the
`Matrix` container of `catas/matrix.py` and the PCA/centroid scoring of
`catas/model.py`.  Numeric values that the source holds as Python floats
are modelled as exact rationals (`Rat`) or reals (`Real` where a square
root is required); Python integers are modelled as `Int`.
-/

namespace Catas

/-- One HMMER match record, mirroring the `HMMER` named tuple of
`catas/parsers.py`.  Coordinates are integers; `evalue` and `coverage`
are modelled as exact rationals. -/
structure HMMERMatch where
  hmm : String
  hmm_len : Int
  seqid : String
  evalue : Rat
  hmm_from : Int
  hmm_to : Int
  ali_from : Int
  ali_to : Int
  coverage : Rat
deriving DecidableEq, Repr

/-- Loop body of `HMMER._distinct_matches` (parsers.py lines 517-548).
State: the current `winner`, the tracked `winner_ali_length` variable,
and the accumulated `winners` list. -/
def distinctGo (thres : Rat) (winner : HMMERMatch) (winnerAliLength : Int)
    (winners : List HMMERMatch) : List HMMERMatch → List HMMERMatch
  | [] => winners ++ [winner]
  | m :: rest =>
    let dist : Int := winner.ali_to - m.ali_from
    let matchAliLength : Int := m.ali_to - m.ali_from
    if 0 < dist ∧ ((dist : Rat) / (winnerAliLength : Rat) > thres ∨
        (dist : Rat) / (matchAliLength : Rat) > thres) then
      if m.evalue < winner.evalue then
        distinctGo thres m matchAliLength winners rest
      else
        distinctGo thres winner winnerAliLength winners rest
    else
      distinctGo thres m matchAliLength (winners ++ [winner]) rest

/-- `HMMER._distinct_matches(matches, overlap_thres)` from parsers.py:
the left-to-right sweep that collapses overlapping hits of one query.
An empty input yields an empty winners list (the `winner is None`
case). -/
def distinct_matches (ms : List HMMERMatch) (thres : Rat) :
    List HMMERMatch :=
  match ms with
  | [] => []
  | m :: rest => distinctGo thres m (m.ali_to - m.ali_from) [] rest

/-- The sweep as worded by the specification (claim C1): the same
state machine, but with the winner's alignment length recomputed from
the winner record at every step and the threshold fixed at 1/2. -/
def distinctSpecGo (winner : HMMERMatch) (out : List HMMERMatch) :
    List HMMERMatch → List HMMERMatch
  | [] => out ++ [winner]
  | c :: rest =>
    let dist : Int := winner.ali_to - c.ali_from
    if 0 < dist ∧
        ((dist : Rat) / ((winner.ali_to - winner.ali_from : Int) : Rat) > 1/2 ∨
         (dist : Rat) / ((c.ali_to - c.ali_from : Int) : Rat) > 1/2) then
      if c.evalue < winner.evalue then
        distinctSpecGo c out rest
      else
        distinctSpecGo winner out rest
    else
      distinctSpecGo c (out ++ [winner]) rest

/-- Spec-side wrapper for the sweep. -/
def distinctMatchesSpec (ms : List HMMERMatch) : List HMMERMatch :=
  match ms with
  | [] => []
  | c :: rest => distinctSpecGo c [] rest

/-- `HMMER._filter_significant` from parsers.py: coverage below 0.3 is
rejected; alignments longer than 80 need an e-value below 1e-5, others
below 1e-3. -/
def filter_significant (m : HMMERMatch) : Bool :=
  if m.coverage < 3/10 then false
  else if 80 < m.ali_to - m.ali_from then decide (m.evalue < 1/100000)
  else decide (m.evalue < 1/1000)

/-- Significance as worded by claim C4: coverage strictly greater
than 0.3, with the same e-value thresholds. -/
def significantSpec (m : HMMERMatch) : Prop :=
  3/10 < m.coverage ∧
    (if 80 < m.ali_to - m.ali_from then m.evalue < 1/100000
     else m.evalue < 1/1000)

instance (m : HMMERMatch) : Decidable (significantSpec m) := by
  unfold significantSpec
  exact inferInstance

/-- The sort key used by `HMMER.from_file`:
`query_matches.sort(key=lambda x: (x.ali_from, x.ali_to))`,
i.e. lexicographic comparison of the Python tuple. -/
def keyLe (a b : HMMERMatch) : Prop :=
  a.ali_from < b.ali_from ∨ (a.ali_from = b.ali_from ∧ a.ali_to ≤ b.ali_to)

instance : DecidableRel keyLe := fun a b => by
  unfold keyLe
  exact inferInstance

instance : IsTotal HMMERMatch keyLe where
  total a b := by
    unfold keyLe
    rcases lt_trichotomy a.ali_from b.ali_from with h | h | h
    · exact Or.inl (Or.inl h)
    · rcases le_total a.ali_to b.ali_to with h2 | h2
      · exact Or.inl (Or.inr ⟨h, h2⟩)
      · exact Or.inr (Or.inr ⟨h.symm, h2⟩)
    · exact Or.inr (Or.inl h)

instance : IsTrans HMMERMatch keyLe where
  trans a b c hab hbc := by
    unfold keyLe at hab hbc ⊢
    rcases hab with h1 | ⟨h1, h2⟩ <;> rcases hbc with h3 | ⟨h3, h4⟩
    · exact Or.inl (h1.trans h3)
    · exact Or.inl (h3 ▸ h1)
    · exact Or.inl (h1 ▸ h3)
    · exact Or.inr ⟨h1.trans h3, h2.trans h4⟩

/-- `query_matches.sort(key=lambda x: (x.ali_from, x.ali_to))` from
`HMMER.from_file`.  Python's `list.sort` is a stable sort by the key;
insertion sort with the (total, transitive) relation `keyLe` computes
exactly that stable sort. -/
def sortMatches (ms : List HMMERMatch) : List HMMERMatch :=
  List.insertionSort keyLe ms

/-- Per-query processing of `HMMER.from_file` (parsers.py lines
377-401): drop zero-length alignment spans, sort by
`(ali_from, ali_to)`, resolve overlaps with threshold 0.5, and keep
only the significant winners. -/
def processQuery (ms : List HMMERMatch) : List HMMERMatch :=
  (distinct_matches
      (sortMatches (ms.filter (fun m => decide (0 < m.ali_to - m.ali_from))))
      (1/2)).filter filter_significant

/-- Python exception values raised by the embedded functions. -/
inductive PyError where
  | hmmError : List String → PyError
  | attributeError : PyError
  | valueError : PyError
  | assertionError : PyError
  | keyError : String → PyError
  | typeError : PyError
deriving DecidableEq, Repr

/-- Adding one element to a Python `set` of strings, modelled as a
duplicate-free list in insertion order. -/
def addSeqid (s : List String) (x : String) : List String :=
  if x ∈ s then s else s ++ [x]

/-- One update of the `defaultdict(set)` keyed by hmm name
(`these_hmms[match.hmm].add(match.seqid)` in count.py), modelled as an
insertion-ordered association list. -/
def insertMatch (d : List (String × List String)) (h s : String) :
    List (String × List String) :=
  match d with
  | [] => [(h, [s])]
  | (k, v) :: rest =>
    if k = h then (k, addSeqid v s) :: rest else (k, v) :: insertMatch rest h s

/-- The `these_hmms` dictionary built by the first loop of
`cazy_counts`. -/
def buildHmms (ms : List HMMERMatch) : List (String × List String) :=
  ms.foldl (fun d m => insertMatch d m.hmm m.seqid) []

/-- `these_hmms[col]` on a `defaultdict(set)`: a missing key yields the
empty set. -/
def lookupSet : List (String × List String) → String → List String
  | [], _ => []
  | (k, v) :: rest, q => if q = k then v else lookupSet rest q

/-- `cazy_counts(matches, required_cols)` from count.py: count the
distinct sequence ids per hmm family; raise `HMMError` with all
observed family names missing from `required_cols`. -/
def cazy_counts (ms : List HMMERMatch) (required_cols : List String) :
    Except PyError (List Nat) :=
  let d := buildHmms ms
  let invalid := (d.map Prod.fst).filter (fun k => decide (k ∉ required_cols))
  if 0 < invalid.length then Except.error (PyError.hmmError invalid)
  else Except.ok (required_cols.map (fun col => (lookupSet d col).length))

/-- The seqids of all matches of one family, in match order
(`hmm == fam` is the grouping used by `cazy_counts`). -/
def seqidsOf (ms : List HMMERMatch) (fam : String) : List String :=
  (ms.filter (fun m => m.hmm == fam)).map HMMERMatch.seqid

/-- Number of distinct sequence ids among the matches of one family. -/
def distinctSeqidCount (ms : List HMMERMatch) (fam : String) : Nat :=
  (seqidsOf ms fam).dedup.length

/-- The parse-then-dedup-then-count pipeline over a list of per-query
blocks, as composed by `HMMER.from_file` and `cazy_counts`. -/
def pipelineCounts (blocks : List (List HMMERMatch))
    (required_cols : List String) : Except PyError (List Nat) :=
  cazy_counts ((blocks.map processQuery).flatten) required_cols

/-- A named-row, named-column 2-D table: the `Matrix` class of
catas/matrix.py (over `Rat` for exact numeric data, over `Real` for
the PCA/centroid stage, over `Nat` for count matrices). -/
structure Matrix (α : Type) where
  rows : List String
  columns : List String
  arr : List (List α)
deriving DecidableEq, Repr

/-- `Matrix.__init__` with its two shape assertions
(`len(rows) == arr.shape[0]`, `len(columns) == arr.shape[1]`). -/
def matrixNew {α : Type} (rows columns : List String)
    (arr : List (List α)) : Except PyError (Matrix α) :=
  if rows.length = arr.length ∧ arr.all (fun r => r.length == columns.length)
  then Except.ok ⟨rows, columns, arr⟩
  else Except.error PyError.assertionError

/-- `cazy_counts_multi(handles, labels, required_cols)` from count.py.

The warning loop reads `for label, c in zip(labels, counts): if
(counts == 0).all(): ...` where `counts` is the Python *list* of
per-sample count arrays, not the row `c` bound by the loop.  Comparing
a list with the integer `0` by `==` yields the plain bool `False`, and
`False.all()` raises `AttributeError`; so the loop body fails as soon
as it runs once.  With an empty `counts`, `np.row_stack([])` raises
`ValueError` instead. -/
def cazy_counts_multi (handles : List (List HMMERMatch))
    (labels : List String) (required_cols : List String) :
    Except PyError (Matrix Nat) := do
  let counts ← handles.mapM (fun m => cazy_counts m required_cols)
  match labels.zip counts with
  | _ :: _ => Except.error PyError.attributeError
  | [] =>
    if counts.isEmpty then Except.error PyError.valueError
    else matrixNew labels required_cols counts

/-- A value stored in a `.npz` container: a 0-d string array (what
`np.savez` makes of a plain Python string argument), a 1-d string
array, or a 2-d numeric array. -/
inductive NpValue where
  | str0 : String → NpValue
  | strs : List String → NpValue
  | num2 : List (List Rat) → NpValue
deriving DecidableEq, Repr

/-- `Matrix.as_dict_of_arrays(prefix)` from matrix.py. -/
def Matrix.as_dict_of_arrays (m : Matrix Rat) (pfx : String) :
    List (String × NpValue) :=
  [(pfx ++ "arr", NpValue.num2 m.arr),
   (pfx ++ "rows", NpValue.strs m.rows),
   (pfx ++ "columns", NpValue.strs m.columns)]

/-- `doa[key]` expecting a 1-d string array; a missing key raises
`KeyError`. -/
def getStrs (doa : List (String × NpValue)) (k : String) :
    Except PyError (List String) :=
  match doa.lookup k with
  | none => Except.error (PyError.keyError k)
  | some (NpValue.strs v) => Except.ok v
  | some _ => Except.error PyError.typeError

/-- `doa[key]` expecting a 2-d numeric array. -/
def getNum2 (doa : List (String × NpValue)) (k : String) :
    Except PyError (List (List Rat)) :=
  match doa.lookup k with
  | none => Except.error (PyError.keyError k)
  | some (NpValue.num2 v) => Except.ok v
  | some _ => Except.error PyError.typeError

/-- `Matrix.from_dict_of_arrays(doa, prefix)` from matrix.py; the
constructor arguments are evaluated in order rows, columns, arr. -/
def Matrix.from_dict_of_arrays (doa : List (String × NpValue))
    (pfx : String) : Except PyError (Matrix Rat) := do
  let rows ← getStrs doa (pfx ++ "rows")
  let columns ← getStrs doa (pfx ++ "columns")
  let arr ← getNum2 doa (pfx ++ "arr")
  Except.ok ⟨rows, columns, arr⟩

/-- `np.savez(handle, *args)` with positional arguments: each argument
is stored under the name `arr_i`. -/
def savezPositional (args : List NpValue) : List (String × NpValue) :=
  args.enum.map (fun p => ("arr_" ++ toString p.fst, p.snd))

/-- `Matrix.write(handle, prefix)` from matrix.py.  The source calls
`np.savez(handle, *self.as_dict_of_arrays(prefix=prefix))` with a
single star, so the dict is unpacked into its *keys*: the file holds
the three key strings under the positional names `arr_0`, `arr_1`,
`arr_2`, not the matrix data. -/
def Matrix.write (m : Matrix Rat) (pfx : String) :
    List (String × NpValue) :=
  savezPositional
    ((Matrix.as_dict_of_arrays m pfx).map (fun kv => NpValue.str0 kv.fst))

/-- `Matrix.read(handle, prefix)` from matrix.py.  Note the source
passes no prefix on to `from_dict_of_arrays`. -/
def Matrix.read (file : List (String × NpValue)) (pfx : String) :
    Except PyError (Matrix Rat) :=
  Matrix.from_dict_of_arrays file ""

/-- `dists.arr.min(axis=1)` for one row.  numpy reduces a nonempty row
with pairwise `min`; the empty case (on which numpy raises) is mapped
to 0 and never arises in the claims. -/
def rowMin {α : Type} [LinearOrder α] [Zero α] : List α → α
  | [] => 0
  | x :: xs => xs.foldl min x

/-- `dists.arr.max(axis=1)` for one row. -/
def rowMax {α : Type} [LinearOrder α] [Zero α] : List α → α
  | [] => 0
  | x :: xs => xs.foldl max x

/-- One row of `CentroidsModel._rcd` (model.py lines 111-114):
`1 - (d - min_) / (max_ - min_)` with the row's own min and max. -/
def rcdRow {α : Type} [LinearOrderedField α] (row : List α) : List α :=
  row.map (fun d => 1 - (d - rowMin row) / (rowMax row - rowMin row))

/-- `CentroidsModel._rcd(dists)` from model.py: rescale every row of a
distance matrix independently. -/
def rcdMatrix {α : Type} [LinearOrderedField α] (dists : Matrix α) :
    Matrix α :=
  ⟨dists.rows, dists.columns, dists.arr.map rcdRow⟩

/-- The stored state of `PCAModel` (model.py): the fitted feature
means and the component matrix (one component per row). -/
structure PCAModel where
  means : List Real
  components : List (List Real)

/-- Dot product of two coordinate lists. -/
def dotL (xs ys : List Real) : Real :=
  (List.zipWith (fun a b => a * b) xs ys).sum

/-- Column name `"pc{:0>2}".format(i + 1)`: zero-padded to two
digits. -/
def pcName (i : Nat) : String :=
  if i + 1 < 10 then "pc0" ++ toString (i + 1) else "pc" ++ toString (i + 1)

/-- `PCAModel.transform(counts)` from model.py:
`(counts.arr - means) @ components.T`, with output columns named
`pc01, pc02, ...`. -/
def PCAModel.transform (p : PCAModel) (counts : Matrix Real) : Matrix Real :=
  let X := counts.arr.map (fun row => List.zipWith (fun a b => a - b) row p.means)
  let Xt := X.map (fun row => p.components.map (fun comp => dotL row comp))
  ⟨counts.rows, (List.range p.components.length).map pcName, Xt⟩

/-- Euclidean norm of the coordinate-wise difference of two points
(`np.linalg.norm` applied to `x - centroid`). -/
noncomputable def euclid (xs ys : List Real) : Real :=
  Real.sqrt (((List.zipWith (fun a b => a - b) xs ys).map (fun d => d * d)).sum)

/-- `CentroidsModel.distances(points)` from model.py: the centroids
object is a `Matrix` whose rows are class names; the result has the
sample rows and one column per class. -/
noncomputable def distances (cm : Matrix Real) (points : Matrix Real) :
    Matrix Real :=
  ⟨points.rows, cm.rows,
   points.arr.map (fun prow => cm.arr.map (fun crow => euclid prow crow))⟩

/-- `CentroidsModel.rcd(points)` from model.py. -/
noncomputable def rcdOf (cm : Matrix Real) (points : Matrix Real) :
    Matrix Real :=
  rcdMatrix (distances cm points)

/-- The `RCDResult` named tuple of model.py. -/
structure RCDResult where
  label : String
  nomenclature : String
  nomenclature_class : String
  value : Real

/-- `RCDResult.from_matrix(m, nomenclature)`: zip the row-major
product of row and column labels with the flattened value array. -/
def RCDResult.from_matrix (m : Matrix Real) (nom : String) :
    List RCDResult :=
  List.zipWith (fun lc v => ⟨lc.fst, nom, lc.snd, v⟩)
    (m.rows.flatMap (fun l => m.columns.map (fun c => (l, c))))
    m.arr.flatten

/-- The `NomenclatureClass` named tuple of model.py. -/
structure NomenclatureClass where
  label : String
  genome : String
  nomenclature1 : String
  nomenclature2 : String
  nomenclature3 : String

/-- The `PCAWithLabels` result bundle of model.py. -/
structure PCAWithLabels where
  pca : Matrix Real
  rcdResults : List RCDResult
  classes : Option (List NomenclatureClass)

/-- The `Model` bundle of model.py (training data kept only as the
stored reference bundle). -/
structure Model where
  n1_centroids : Matrix Real
  n2_centroids : Matrix Real
  n3_centroids : Matrix Real
  pca_model : PCAModel
  hmm_lengths : List (String × Int)
  training_data : PCAWithLabels

/-- `Model.predict(counts)` from model.py: one PCA transform, three
per-nomenclature RCD computations, flattened into one result list. -/
noncomputable def Model.predict (model : Model) (counts : Matrix Real) :
    PCAWithLabels :=
  let pca_transformed := model.pca_model.transform counts
  let n1_rcd := rcdOf model.n1_centroids pca_transformed
  let n2_rcd := rcdOf model.n2_centroids pca_transformed
  let n3_rcd := rcdOf model.n3_centroids pca_transformed
  ⟨pca_transformed,
   RCDResult.from_matrix n1_rcd "nomenclature1" ++
     RCDResult.from_matrix n2_rcd "nomenclature2" ++
     RCDResult.from_matrix n3_rcd "nomenclature3",
   none⟩

/-! ### Concrete example records used in counterexamples and witnesses -/

/-- Alignment 0-100 with e-value 1. -/
def exC8a : HMMERMatch := ⟨"F", 100, "s", 1, 0, 0, 0, 100, 1⟩

/-- Alignment 60-200 with e-value 1: overlaps `exC8a` by 40 residues,
below the 0.5 fraction for both, so both are committed. -/
def exC8b : HMMERMatch := ⟨"F", 100, "s", 1, 0, 0, 60, 200, 1⟩

/-- Short alignment 61-69 with e-value 0: absorbed into `exC8b` by the
overlap rule and replacing it as winner. -/
def exC8c : HMMERMatch := ⟨"F", 100, "s", 0, 0, 0, 61, 69, 1⟩

/-- Coverage exactly 0.3: kept by the code, rejected by the spec's
strict reading. -/
def exC4 : HMMERMatch := ⟨"F", 100, "s", 1/1000000, 0, 30, 0, 10, 3/10⟩

/-- Non-overlapping pair for witnesses. -/
def exW1a : HMMERMatch := ⟨"GH5", 100, "s1", 1/1000000, 0, 90, 0, 100, 9/10⟩

/-- Second element of the non-overlapping witness pair. -/
def exW1b : HMMERMatch := ⟨"GH7", 100, "s1", 1/1000000, 0, 90, 200, 300, 9/10⟩

/-- The sort key tuple `(ali_from, ali_to)`. -/
def aliKey (m : HMMERMatch) : Int × Int := (m.ali_from, m.ali_to)

/-- Family F1, alignment 0-100, e-value 0. -/
def exC9a : HMMERMatch := ⟨"F1", 100, "s", 0, 0, 0, 0, 100, 1⟩

/-- Family F2: identical coordinates and e-value as `exC9a`. -/
def exC9b : HMMERMatch := ⟨"F2", 100, "s", 0, 0, 0, 0, 100, 1⟩

/-- Counting witness: family GH1 on sequence s1. -/
def exT1 : HMMERMatch := ⟨"GH1", 100, "s1", 1, 0, 0, 0, 10, 1⟩

/-- Counting witness: a second GH1 domain on the same sequence s1. -/
def exT2 : HMMERMatch := ⟨"GH1", 100, "s1", 1, 0, 0, 20, 30, 1⟩

/-- Counting witness: family GH1 on sequence s2. -/
def exT3 : HMMERMatch := ⟨"GH1", 100, "s2", 1, 0, 0, 0, 10, 1⟩

/-- Counting witness: family GH2 on sequence s1. -/
def exT4 : HMMERMatch := ⟨"GH2", 100, "s1", 1, 0, 0, 0, 10, 1⟩

/-- Example Matrix for the round-trip bug demonstration. -/
def exC5m : Matrix Rat := ⟨["r1"], ["c1", "c2"], [[1, 2]]⟩

/-- Example distances matrix with one row holding two distinct
values. -/
def exC2m : Matrix Rat := ⟨["s1"], ["cA", "cB"], [[0, 2]]⟩

/-- Example PCA model: one feature, one component. -/
def exPCA : PCAModel := ⟨[0], [[1]]⟩

/-- Example one-class centroid matrix in a one-dimensional PCA
space. -/
def exCent : Matrix Real := ⟨["classA"], ["pc01"], [[0]]⟩

/-- Example stored training bundle. -/
def exTrain : PCAWithLabels := ⟨⟨[], ["pc01"], []⟩, [], none⟩

/-- Example full model. -/
def exModel : Model := ⟨exCent, exCent, exCent, exPCA, [("GH1", 10)], exTrain⟩

/-- Example count matrix with the canonical column name. -/
def exCounts1 : Matrix Real := ⟨["s"], ["GH1"], [[2]]⟩

/-- The same counts under a different column name. -/
def exCounts2 : Matrix Real := ⟨["s"], ["XX"], [[2]]⟩

/-! ### Helper lemmas -/

/-- With the tracked length equal to the winner's alignment length,
the source sweep body and the spec sweep body coincide. -/
theorem distinctGo_eq_specGo (rest : List HMMERMatch) :
    ∀ (w : HMMERMatch) (out : List HMMERMatch),
      distinctGo (1/2) w (w.ali_to - w.ali_from) out rest =
        distinctSpecGo w out rest := by
  induction rest with
  | nil => intro w out; rfl
  | cons m rest ih =>
    intro w out
    simp only [distinctGo, distinctSpecGo]
    split_ifs with h1 h2
    · exact ih m out
    · exact ih w out
    · exact ih m (out ++ [w])

/-- When every adjacent pair has non-positive `dist`, the sweep only
commits, and reproduces the input. -/
theorem distinctGo_nonoverlap (rest : List HMMERMatch) :
    ∀ (w : HMMERMatch) (len : Int) (out : List HMMERMatch),
      List.Chain' (fun a b => a.ali_to - b.ali_from ≤ 0) (w :: rest) →
      distinctGo (1/2) w len out rest = out ++ w :: rest := by
  induction rest with
  | nil => intro w len out _; rfl
  | cons m rest ih =>
    intro w len out h
    rw [List.chain'_cons] at h
    obtain ⟨hwm, hrest⟩ := h
    simp only [distinctGo]
    rw [if_neg]
    · rw [ih m (m.ali_to - m.ali_from) (out ++ [w]) hrest]
      simp
    · intro hcon
      exact absurd hcon.1 (by omega)

/-- Membership in a Python string set after `add`. -/
theorem mem_addSeqid (s : List String) (y x : String) :
    x ∈ addSeqid s y ↔ x ∈ s ∨ x = y := by
  unfold addSeqid
  split_ifs with h
  · constructor
    · exact Or.inl
    · rintro (hx | rfl)
      · exact hx
      · exact h
  · simp [List.mem_append]

/-- `addSeqid` preserves distinctness. -/
theorem nodup_addSeqid (s : List String) (y : String) (h : s.Nodup) :
    (addSeqid s y).Nodup := by
  unfold addSeqid
  split_ifs with hy
  · exact h
  · rw [← List.concat_eq_append]
    exact List.Nodup.concat hy h

/-- Membership after folding a list of seqids into a set. -/
theorem mem_foldl_addSeqid (xs : List String) :
    ∀ (acc : List String) (x : String),
      x ∈ xs.foldl addSeqid acc ↔ x ∈ acc ∨ x ∈ xs := by
  induction xs with
  | nil => intro acc x; simp
  | cons y ys ih =>
    intro acc x
    simp only [List.foldl_cons, ih, mem_addSeqid, List.mem_cons]
    tauto

/-- Distinctness after folding seqids into a set. -/
theorem nodup_foldl_addSeqid (xs : List String) :
    ∀ (acc : List String), acc.Nodup → (xs.foldl addSeqid acc).Nodup := by
  induction xs with
  | nil => intro acc h; exact h
  | cons y ys ih => intro acc h; exact ih _ (nodup_addSeqid acc y h)

/-- The set built by folding has exactly as many elements as the
dedup of its input list. -/
theorem length_foldl_addSeqid (xs : List String) :
    (xs.foldl addSeqid []).length = xs.dedup.length := by
  have hperm : (xs.foldl addSeqid []).Perm xs.dedup := by
    rw [List.perm_ext_iff_of_nodup
      (nodup_foldl_addSeqid xs [] List.nodup_nil) (List.nodup_dedup xs)]
    intro a
    rw [mem_foldl_addSeqid, List.mem_dedup]
    simp
  exact hperm.length_eq

/-- `lookupSet` after one dictionary update. -/
theorem lookupSet_insertMatch (d : List (String × List String))
    (h s k : String) :
    lookupSet (insertMatch d h s) k =
      if k = h then addSeqid (lookupSet d k) s else lookupSet d k := by
  induction d with
  | nil =>
    by_cases hk : k = h <;> simp [insertMatch, lookupSet, addSeqid, hk]
  | cons p rest ih =>
    obtain ⟨k0, v0⟩ := p
    by_cases h0 : k0 = h
    · subst h0
      by_cases hk : k = k0 <;> simp [insertMatch, lookupSet, hk]
    · simp only [insertMatch, if_neg h0]
      by_cases hk : k = k0
      · have hkh : k ≠ h := fun he => h0 (hk.symm.trans he)
        simp only [lookupSet, if_pos hk, if_neg hkh]
      · simp [lookupSet, hk, ih]

/-- `lookupSet` over the whole dictionary fold. -/
theorem lookupSet_foldl (ms : List HMMERMatch) :
    ∀ (d : List (String × List String)) (k : String),
      lookupSet (ms.foldl (fun d m => insertMatch d m.hmm m.seqid) d) k =
        (seqidsOf ms k).foldl addSeqid (lookupSet d k) := by
  induction ms with
  | nil => intro d k; simp [seqidsOf]
  | cons m ms ih =>
    intro d k
    simp only [List.foldl_cons]
    rw [ih, lookupSet_insertMatch]
    by_cases hk : m.hmm = k
    · rw [if_pos hk.symm]
      simp [seqidsOf, List.filter_cons, hk]
    · rw [if_neg (fun hkh : k = m.hmm => hk hkh.symm)]
      simp [seqidsOf, List.filter_cons, hk]

/-- Key membership after one dictionary update. -/
theorem mem_keys_insertMatch (d : List (String × List String))
    (h s k : String) :
    k ∈ (insertMatch d h s).map Prod.fst ↔
      k ∈ d.map Prod.fst ∨ k = h := by
  induction d with
  | nil => simp [insertMatch]
  | cons p rest ih =>
    obtain ⟨k0, v0⟩ := p
    by_cases h0 : k0 = h
    · subst h0
      rw [show insertMatch ((k0, v0) :: rest) k0 s = (k0, addSeqid v0 s) :: rest
        from by simp [insertMatch]]
      simp only [List.map_cons, List.mem_cons]
      tauto
    · simp only [insertMatch, if_neg h0, List.map_cons, List.mem_cons, ih]
      tauto

/-- Key membership over the whole dictionary fold. -/
theorem mem_keys_foldl (ms : List HMMERMatch) :
    ∀ (d : List (String × List String)) (k : String),
      (k ∈ (ms.foldl (fun d m => insertMatch d m.hmm m.seqid) d).map Prod.fst) ↔
        k ∈ d.map Prod.fst ∨ ∃ m ∈ ms, m.hmm = k := by
  induction ms with
  | nil => intro d k; simp
  | cons m ms ih =>
    intro d k
    simp only [List.foldl_cons]
    rw [ih, mem_keys_insertMatch]
    simp only [List.mem_cons]
    constructor
    · rintro ((hd | he) | ⟨m2, hm2, he⟩)
      · exact Or.inl hd
      · exact Or.inr ⟨m, Or.inl rfl, he.symm⟩
      · exact Or.inr ⟨m2, Or.inr hm2, he⟩
    · rintro (hd | ⟨m2, (rfl | hm2), he⟩)
      · exact Or.inl (Or.inl hd)
      · exact Or.inl (Or.inr he.symm)
      · exact Or.inr ⟨m2, hm2, he⟩

/-- The keys of `these_hmms` are exactly the observed families. -/
theorem mem_keys_buildHmms (ms : List HMMERMatch) (k : String) :
    k ∈ (buildHmms ms).map Prod.fst ↔ ∃ m ∈ ms, m.hmm = k := by
  unfold buildHmms
  rw [mem_keys_foldl]
  simp

/-- The per-family entry of `these_hmms` counts exactly the distinct
seqids of that family. -/
theorem lookupSet_buildHmms_length (ms : List HMMERMatch) (k : String) :
    (lookupSet (buildHmms ms) k).length = distinctSeqidCount ms k := by
  unfold buildHmms distinctSeqidCount
  rw [lookupSet_foldl ms [] k]
  exact length_foldl_addSeqid (seqidsOf ms k)

/-- A `foldl min` is below its seed and every folded element. -/
theorem foldl_min_le {α : Type} [LinearOrder α] (xs : List α) :
    ∀ a : α, xs.foldl min a ≤ a ∧ ∀ x ∈ xs, xs.foldl min a ≤ x := by
  induction xs with
  | nil => simp
  | cons y ys ih =>
    intro a
    refine ⟨le_trans (ih (min a y)).1 (min_le_left a y), ?_⟩
    intro x hx
    rcases List.mem_cons.1 hx with rfl | hx
    · exact le_trans (ih (min a x)).1 (min_le_right a x)
    · exact (ih (min a y)).2 x hx

/-- A `foldl max` is above its seed and every folded element. -/
theorem foldl_max_ge {α : Type} [LinearOrder α] (xs : List α) :
    ∀ a : α, a ≤ xs.foldl max a ∧ ∀ x ∈ xs, x ≤ xs.foldl max a := by
  induction xs with
  | nil => simp
  | cons y ys ih =>
    intro a
    refine ⟨le_trans (le_max_left a y) (ih (max a y)).1, ?_⟩
    intro x hx
    rcases List.mem_cons.1 hx with rfl | hx
    · exact le_trans (le_max_right a x) (ih (max a x)).1
    · exact (ih (max a y)).2 x hx

/-- The row minimum is below every row entry. -/
theorem rowMin_le_mem {α : Type} [LinearOrder α] [Zero α] (row : List α) :
    ∀ x ∈ row, rowMin row ≤ x := by
  cases row with
  | nil => intro x hx; exact absurd hx (List.not_mem_nil x)
  | cons y ys =>
    intro x hx
    rcases List.mem_cons.1 hx with rfl | hx
    · exact (foldl_min_le ys x).1
    · exact (foldl_min_le ys y).2 x hx

/-- Every row entry is below the row maximum. -/
theorem mem_le_rowMax {α : Type} [LinearOrder α] [Zero α] (row : List α) :
    ∀ x ∈ row, x ≤ rowMax row := by
  cases row with
  | nil => intro x hx; exact absurd hx (List.not_mem_nil x)
  | cons y ys =>
    intro x hx
    rcases List.mem_cons.1 hx with rfl | hx
    · exact (foldl_max_ge ys x).1
    · exact (foldl_max_ge ys y).2 x hx

/-- A row holding two distinct values has its minimum strictly below
its maximum. -/
theorem rowMin_lt_rowMax {α : Type} [LinearOrder α] [Zero α]
    (row : List α) (h2 : ∃ a ∈ row, ∃ b ∈ row, a ≠ b) :
    rowMin row < rowMax row := by
  obtain ⟨a, ha, b, hb, hne⟩ := h2
  rcases lt_or_le (rowMin row) (rowMax row) with h | h
  · exact h
  · exfalso
    apply hne
    have ha1 := le_antisymm ((mem_le_rowMax row a ha).trans h) (rowMin_le_mem row a ha)
    have hb1 := le_antisymm ((mem_le_rowMax row b hb).trans h) (rowMin_le_mem row b hb)
    rw [ha1, hb1]

/-- Mutually `keyLe`-related matches carry the same sort key. -/
theorem keyLe_antisymm_aliKey (a b : HMMERMatch)
    (h1 : keyLe a b) (h2 : keyLe b a) : aliKey a = aliKey b := by
  unfold keyLe at h1 h2
  simp only [aliKey, Prod.mk.injEq]
  omega

/-- Two sorted lists that are permutations of each other and have
pairwise distinct sort keys are equal. -/
theorem eq_of_perm_sorted_nodupKeys :
    ∀ (l1 l2 : List HMMERMatch), l1.Perm l2 → l1.Sorted keyLe →
      l2.Sorted keyLe → (l1.map aliKey).Nodup → l1 = l2 := by
  intro l1
  induction l1 with
  | nil =>
    intro l2 hp _ _ _
    exact (List.Perm.eq_nil hp.symm).symm
  | cons a t1 ih =>
    intro l2 hp hs1 hs2 hnd
    cases l2 with
    | nil =>
      have := hp.eq_nil
      simp at this
    | cons b t2 =>
      have hndc : aliKey a ∉ t1.map aliKey ∧ (t1.map aliKey).Nodup :=
        List.nodup_cons.1 (by simpa using hnd)
      have hab : a = b := by
        by_contra hne
        have ha2 : a ∈ b :: t2 := hp.mem_iff.1 (List.mem_cons_self a t1)
        have hb1 : b ∈ a :: t1 := hp.mem_iff.2 (List.mem_cons_self b t2)
        have hat2 : a ∈ t2 := by
          rcases List.mem_cons.1 ha2 with h | h
          · exact absurd h hne
          · exact h
        have hbt1 : b ∈ t1 := by
          rcases List.mem_cons.1 hb1 with h | h
          · exact absurd h.symm hne
          · exact h
        have h1 : keyLe a b := (List.sorted_cons.1 hs1).1 b hbt1
        have h2 : keyLe b a := (List.sorted_cons.1 hs2).1 a hat2
        have hk : aliKey a = aliKey b := keyLe_antisymm_aliKey a b h1 h2
        have hmem : aliKey b ∈ t1.map aliKey := List.mem_map_of_mem aliKey hbt1
        rw [← hk] at hmem
        exact hndc.1 hmem
      subst hab
      rw [ih t2 hp.cons_inv hs1.of_cons hs2.of_cons hndc.2]

/-- Stable sorting two permuted lists with distinct keys gives the
same list. -/
theorem sortMatches_eq_of_perm (l1 l2 : List HMMERMatch)
    (hp : l1.Perm l2) (hnd : (l1.map aliKey).Nodup) :
    sortMatches l1 = sortMatches l2 := by
  have hperm : (sortMatches l1).Perm (sortMatches l2) :=
    ((List.perm_insertionSort keyLe l1).trans hp).trans
      (List.perm_insertionSort keyLe l2).symm
  have hnd1 : ((sortMatches l1).map aliKey).Nodup :=
    (((List.perm_insertionSort keyLe l1).map aliKey).nodup_iff).2 hnd
  exact eq_of_perm_sorted_nodupKeys _ _ hperm
    (List.sorted_insertionSort keyLe l1) (List.sorted_insertionSort keyLe l2)
    hnd1

/-- The whole per-query stage is invariant under reordering its input
when the sort keys are pairwise distinct. -/
theorem processQuery_eq_of_perm (l1 l2 : List HMMERMatch)
    (hp : l1.Perm l2) (hnd : (l1.map aliKey).Nodup) :
    processQuery l1 = processQuery l2 := by
  unfold processQuery
  rw [sortMatches_eq_of_perm _ _
    (hp.filter (fun m => decide (0 < m.ali_to - m.ali_from)))
    (List.Nodup.sublist ((List.filter_sublist l1).map aliKey) hnd)]

/-- The successful result of `cazy_counts` is always the vector of
per-family distinct-seqid counts. -/
theorem cazy_counts_ok (ms : List HMMERMatch) (req : List String)
    (v : List Nat) (h : cazy_counts ms req = Except.ok v) :
    v = req.map (fun col => distinctSeqidCount ms col) := by
  simp only [cazy_counts] at h
  by_cases hp : 0 < (((buildHmms ms).map Prod.fst).filter
      (fun k => decide (k ∉ req))).length
  · rw [if_pos hp] at h
    exact absurd h (by simp)
  · rw [if_neg hp] at h
    rw [← Except.ok.inj h]
    exact List.map_congr_left fun col _ => lookupSet_buildHmms_length ms col

/-! ### Claim theorems -/

/-- C1: for every list of HMMER match records of one query sorted
ascending by `(ali_from, ali_to)` (with positive alignment lengths, as
guaranteed by the zero-length drop in `from_file`), the
overlap-resolution sweep behaves exactly as the specification words
it: it maintains a single current winner, computes
`dist = winner.ali_to - candidate.ali_from`, merges when `dist > 0`
and either overlap fraction exceeds 0.5 keeping the strictly lower
e-value (ties keep the existing winner), otherwise commits the winner,
and commits the final winner at the end. -/
theorem claim1_sweep_matches_spec (ms : List HMMERMatch)
    (hsorted : List.Sorted keyLe ms)
    (hpos : ∀ m ∈ ms, 0 < m.ali_to - m.ali_from) :
    distinct_matches ms (1/2) = distinctMatchesSpec ms := by
  cases ms with
  | nil => rfl
  | cons m rest => exact distinctGo_eq_specGo rest m []

/-- Witness instantiating `claim1_sweep_matches_spec` at a concrete
sorted positive-length match list. -/
theorem claim1_witness :
    List.Sorted keyLe [exW1a, exW1b] ∧
      (∀ m ∈ [exW1a, exW1b], 0 < m.ali_to - m.ali_from) ∧
      distinct_matches [exW1a, exW1b] (1/2) =
        distinctMatchesSpec [exW1a, exW1b] :=
  ⟨by decide, by decide,
    claim1_sweep_matches_spec [exW1a, exW1b] (by decide) (by decide)⟩

/-- C4 counterexample: a match with coverage exactly 0.3 (and an
otherwise passing e-value) is kept by `_filter_significant`, although
the claim's strict reading `coverage > 0.3` rejects it: the code tests
`coverage < 0.3` and keeps the boundary value. -/
theorem claim4_counterexample :
    filter_significant exC4 = true ∧ ¬ significantSpec exC4 := by
  constructor
  · norm_num [filter_significant, exC4]
  · norm_num [significantSpec, exC4]

/-- C4 amended: a committed winner is kept iff its coverage is at
least 0.3 (not strictly greater) and its e-value is strictly below
1e-5 when the alignment length exceeds 80, else strictly below
1e-3. -/
theorem claim4_amended (m : HMMERMatch) :
    filter_significant m = true ↔
      (3/10 ≤ m.coverage ∧
        (if 80 < m.ali_to - m.ali_from then m.evalue < 1/100000
         else m.evalue < 1/1000)) := by
  by_cases hc : m.coverage < 3/10
  · simp only [filter_significant, if_pos hc, Bool.false_eq_true, false_iff]
    rintro ⟨h2, -⟩
    exact absurd hc (not_lt.2 h2)
  · by_cases hl : 80 < m.ali_to - m.ali_from
    · simp only [filter_significant, if_neg hc, if_pos hl, decide_eq_true_eq]
      exact ⟨fun he => ⟨not_lt.1 hc, he⟩, fun h => h.2⟩
    · simp only [filter_significant, if_neg hc, if_neg hl, decide_eq_true_eq]
      exact ⟨fun he => ⟨not_lt.1 hc, he⟩, fun h => h.2⟩

/-- C8 counterexample: a sorted, positive-length match list on which
the sweep is not idempotent.  The sweep keeps `exC8a` and `exC8c`
(committing `exC8a` when `exC8b` arrives, then letting the
lower-e-value `exC8c` absorb and replace `exC8b`); re-running the
sweep on that output merges `exC8c` into `exC8a`, because the short
`exC8c` now overlaps `exC8a` by more than half its own length. -/
theorem claim8_counterexample :
    List.Sorted keyLe [exC8a, exC8b, exC8c] ∧
      (∀ m ∈ [exC8a, exC8b, exC8c], 0 < m.ali_to - m.ali_from) ∧
      distinct_matches (distinct_matches [exC8a, exC8b, exC8c] (1/2)) (1/2) ≠
        distinct_matches [exC8a, exC8b, exC8c] (1/2) := by
  refine ⟨by decide, by decide, ?_⟩
  have h1 : distinct_matches [exC8a, exC8b, exC8c] (1/2) = [exC8a, exC8c] := by
    norm_num [distinct_matches, distinctGo, exC8a, exC8b, exC8c]
  have h2 : distinct_matches [exC8a, exC8c] (1/2) = [exC8c] := by
    norm_num [distinct_matches, distinctGo, exC8a, exC8c]
  rw [h1, h2]
  simp [exC8a, exC8c]

/-- C8 amended: on a match list sorted by `(ali_from, ali_to)` whose
adjacent pairs are non-overlapping (`ali_to - ali_from` of the next
never positive ... i.e. earlier `ali_to` minus later `ali_from` is not
positive), the sweep returns the list unchanged.  The further claim
that the sweep is idempotent on all of its own outputs is false
(`claim8_counterexample`): an output pair may overlap positively but
below threshold for the lengths compared at commit time, yet above
threshold for a later, shorter replacement winner. -/
theorem claim8_amended (ms : List HMMERMatch)
    (hsorted : List.Sorted keyLe ms)
    (hno : List.Chain' (fun a b => a.ali_to - b.ali_from ≤ 0) ms) :
    distinct_matches ms (1/2) = ms := by
  cases ms with
  | nil => rfl
  | cons m rest =>
    simpa using distinctGo_nonoverlap rest m (m.ali_to - m.ali_from) [] hno

/-- Witness instantiating `claim8_amended` at a concrete sorted
non-overlapping list. -/
theorem claim8_witness :
    List.Sorted keyLe [exW1a, exW1b] ∧
      List.Chain' (fun a b => a.ali_to - b.ali_from ≤ 0) [exW1a, exW1b] ∧
      distinct_matches [exW1a, exW1b] (1/2) = [exW1a, exW1b] :=
  ⟨by decide,
   List.chain'_cons.2 ⟨by decide, List.chain'_singleton exW1b⟩,
   claim8_amended [exW1a, exW1b] (by decide)
     (List.chain'_cons.2 ⟨by decide, List.chain'_singleton exW1b⟩)⟩

/-- C2: for every row of a distances Matrix holding at least two
distinct values, `_rcd` maps each entry `d` to
`1 - (d - min)/(max - min)` with that row's own minimum and maximum;
consequently entries at the row minimum score exactly 1 and entries at
the row maximum score exactly 0, per row independently. -/
theorem claim2_rcd_minmax (m : Matrix Rat) (row : List Rat)
    (hrow : row ∈ m.arr) (h2 : ∃ a ∈ row, ∃ b ∈ row, a ≠ b) :
    rcdRow row ∈ (rcdMatrix m).arr ∧
      ∀ i : Fin row.length,
        (rcdRow row).get (Fin.cast (by simp [rcdRow]) i) =
            1 - (row.get i - rowMin row) / (rowMax row - rowMin row) ∧
          (row.get i = rowMin row →
            (rcdRow row).get (Fin.cast (by simp [rcdRow]) i) = 1) ∧
          (row.get i = rowMax row →
            (rcdRow row).get (Fin.cast (by simp [rcdRow]) i) = 0) := by
  have hlt : rowMin row < rowMax row := rowMin_lt_rowMax row h2
  have hne : rowMax row - rowMin row ≠ 0 := sub_ne_zero.mpr hlt.ne'
  have key : ∀ i : Fin row.length,
      (rcdRow row).get (Fin.cast (by simp [rcdRow]) i) =
        1 - (row.get i - rowMin row) / (rowMax row - rowMin row) := by
    intro i
    cases i
    unfold rcdRow
    rw [List.get_map]
    rfl
  refine ⟨List.mem_map_of_mem rcdRow hrow, fun i => ⟨key i, ?_, ?_⟩⟩
  · intro hmin
    rw [key i, hmin, sub_self, zero_div, sub_zero]
  · intro hmax
    rw [key i, hmax, div_self hne, sub_self]

/-- Witness instantiating `claim2_rcd_minmax` at a concrete
two-valued row. -/
theorem claim2_witness :
    ([(0 : Rat), 2] ∈ exC2m.arr) ∧
      (∃ a ∈ [(0 : Rat), 2], ∃ b ∈ [(0 : Rat), 2], a ≠ b) ∧
      rcdRow [(0 : Rat), 2] ∈ (rcdMatrix exC2m).arr :=
  ⟨by decide, by decide,
    (claim2_rcd_minmax exC2m [(0 : Rat), 2] (by decide) (by decide)).1⟩

/-- C3: when every observed family is among `required_cols`,
`cazy_counts` returns the vector whose i-th entry is the number of
distinct seqids among matches of family `required_cols[i]` — repeated
domains on one sequence count once, and families with no matches get
count 0. -/
theorem claim3_counts (ms : List HMMERMatch) (required_cols : List String)
    (hall : ∀ m ∈ ms, m.hmm ∈ required_cols) :
    cazy_counts ms required_cols =
      Except.ok (required_cols.map (fun col => distinctSeqidCount ms col)) := by
  simp only [cazy_counts]
  have hinv : ((buildHmms ms).map Prod.fst).filter
      (fun k => decide (k ∉ required_cols)) = [] := by
    rw [List.filter_eq_nil_iff]
    intro k hk
    obtain ⟨m, hm, rfl⟩ := (mem_keys_buildHmms ms k).1 hk
    simp [hall m hm]
  rw [hinv]
  simp only [List.length_nil, lt_irrefl, if_false]
  exact congrArg Except.ok
    (List.map_congr_left fun col _ => lookupSet_buildHmms_length ms col)

/-- Witness instantiating `claim3_counts` at a concrete match list:
GH1 occurs on s1 (twice) and s2, GH2 on s1, GH5 not at all. -/
theorem claim3_witness :
    (∀ m ∈ [exT1, exT2, exT3, exT4], m.hmm ∈ ["GH1", "GH2", "GH5"]) ∧
      cazy_counts [exT1, exT2, exT3, exT4] ["GH1", "GH2", "GH5"] =
        Except.ok (["GH1", "GH2", "GH5"].map
          (fun col => distinctSeqidCount [exT1, exT2, exT3, exT4] col)) :=
  ⟨by decide, claim3_counts [exT1, exT2, exT3, exT4] ["GH1", "GH2", "GH5"]
    (by decide)⟩

/-- C7: `cazy_counts` raises `HMMError` exactly when some observed
family is missing from `required_cols`, and the error's list then
contains precisely the observed families outside `required_cols` — all
of them, not only the first encountered. -/
theorem claim7_unknown_hmm (ms : List HMMERMatch)
    (required_cols : List String) :
    ((∃ m ∈ ms, m.hmm ∉ required_cols) ↔
      ∃ l, cazy_counts ms required_cols =
        Except.error (PyError.hmmError l)) ∧
    ∀ l, cazy_counts ms required_cols = Except.error (PyError.hmmError l) →
      ∀ f, f ∈ l ↔ ((∃ m ∈ ms, m.hmm = f) ∧ f ∉ required_cols) := by
  simp only [cazy_counts]
  have hmem : ∀ f, f ∈ ((buildHmms ms).map Prod.fst).filter
      (fun k => decide (k ∉ required_cols)) ↔
      ((∃ m ∈ ms, m.hmm = f) ∧ f ∉ required_cols) := by
    intro f
    rw [List.mem_filter, mem_keys_buildHmms]
    simp
  constructor
  · constructor
    · rintro ⟨m, hm, hnot⟩
      have hne : ((buildHmms ms).map Prod.fst).filter
          (fun k => decide (k ∉ required_cols)) ≠ [] := by
        intro hnil
        have := (hmem m.hmm).2 ⟨⟨m, hm, rfl⟩, hnot⟩
        rw [hnil] at this
        exact absurd this (List.not_mem_nil _)
      rw [if_pos (List.length_pos.2 hne)]
      exact ⟨_, rfl⟩
    · rintro ⟨l, hl⟩
      by_cases hp : 0 < (((buildHmms ms).map Prod.fst).filter
          (fun k => decide (k ∉ required_cols))).length
      · obtain ⟨f, hf⟩ := List.exists_mem_of_length_pos hp
        obtain ⟨⟨m, hm, rfl⟩, hnot⟩ := (hmem f).1 hf
        exact ⟨m, hm, hnot⟩
      · rw [if_neg hp] at hl
        exact absurd hl (by simp)
  · intro l hl f
    by_cases hp : 0 < (((buildHmms ms).map Prod.fst).filter
        (fun k => decide (k ∉ required_cols))).length
    · rw [if_pos hp] at hl
      obtain ⟨rfl⟩ : PyError.hmmError _ = PyError.hmmError l :=
        Except.error.inj hl
      exact hmem f
    · rw [if_neg hp] at hl
      exact absurd hl (by simp)

/-- Witness instantiating `claim7_unknown_hmm` at a concrete erroring
call: family GH5 is observed but absent from `required_cols`. -/
theorem claim7_witness :
    cazy_counts [exW1a] ["X"] = Except.error (PyError.hmmError ["GH5"]) ∧
      ("GH5" ∈ ["GH5"] ↔
        ((∃ m ∈ [exW1a], m.hmm = "GH5") ∧ "GH5" ∉ ["X"])) :=
  ⟨rfl, (claim7_unknown_hmm [exW1a] ["X"]).2 ["GH5"] rfl "GH5"⟩

/-- C5: the claim `Matrix.read(Matrix.write(m)) == m` is the stated
intent (and the behaviour of the earlier keyword-argument version of
`write`), but the code is broken: `write` calls
`np.savez(handle, *self.as_dict_of_arrays(prefix=prefix))` with a
single star, storing the dict's three *key strings* under positional
names `arr_0..arr_2`, and `read` additionally drops its prefix.
Reading back therefore raises `KeyError("rows")` for every matrix and
prefix, instead of reproducing `m`. -/
theorem claim5_roundtrip_fails (m : Matrix Rat) (pfx : String) :
    Matrix.read (Matrix.write m pfx) pfx =
      Except.error (PyError.keyError "rows") := rfl

/-- C6: the claim says `cazy_counts_multi` always returns a Matrix and
at worst warns on an all-zero row, but the warning loop evaluates
`(counts == 0).all()` on the Python list `counts` (instead of the row
`c`), which raises `AttributeError` as soon as there is at least one
sample; with zero samples `np.row_stack([])` raises `ValueError`.  The
function can never return a Matrix. -/
theorem claim6_multi_crashes :
    cazy_counts_multi [[]] ["s1"] ["GH1"] =
        Except.error PyError.attributeError ∧
      cazy_counts_multi [] [] ["GH1"] = Except.error PyError.valueError :=
  ⟨rfl, rfl⟩

/-- C9 counterexample: two query blocks holding the same multiset of
records in different orders can count differently.  `exC9a` (family
F1) and `exC9b` (family F2) have identical coordinates and identical
e-values; the stable sort preserves the input order, the sweep merges
the pair and the strict `<` tie-break keeps whichever came first, so
the surviving family — and with it the whole count vector — depends on
the line order. -/
theorem claim9_counterexample :
    [exC9a, exC9b].Perm [exC9b, exC9a] ∧
      pipelineCounts [[exC9a, exC9b]] ["F1", "F2"] ≠
        pipelineCounts [[exC9b, exC9a]] ["F1", "F2"] := by
  refine ⟨List.Perm.swap exC9b exC9a [], ?_⟩
  have h1 : processQuery [exC9a, exC9b] = [exC9a] := by
    norm_num [processQuery, sortMatches, List.insertionSort,
      List.orderedInsert, distinct_matches, distinctGo, filter_significant,
      keyLe, List.filter, exC9a, exC9b]
  have h2 : processQuery [exC9b, exC9a] = [exC9b] := by
    norm_num [processQuery, sortMatches, List.insertionSort,
      List.orderedInsert, distinct_matches, distinctGo, filter_significant,
      keyLe, List.filter, exC9b, exC9a]
  have e1 : pipelineCounts [[exC9a, exC9b]] ["F1", "F2"] =
      Except.ok [1, 0] := by
    simp only [pipelineCounts, List.map_cons, List.map_nil, h1]
    rfl
  have e2 : pipelineCounts [[exC9b, exC9a]] ["F1", "F2"] =
      Except.ok [0, 1] := by
    simp only [pipelineCounts, List.map_cons, List.map_nil, h2]
    rfl
  rw [e1, e2]
  simp

/-- C9 amended: provided the `(ali_from, ali_to)` pairs are pairwise
distinct within each query block, the parse-then-dedup-then-count
pipeline is invariant to line order within each block, and every count
it returns equals the number of distinct seqids among the
post-overlap-resolution surviving matches of that family.  Without the
distinct-key proviso the claim fails: identical coordinates with tied
e-values make the kept record depend on the input order
(`claim9_counterexample`). -/
theorem claim9_amended (b1 b2 : List (List HMMERMatch))
    (req : List String)
    (hperm : List.Forall₂ (fun x y => x.Perm y) b1 b2)
    (hkeys : ∀ blk ∈ b1, (blk.map aliKey).Nodup) :
    pipelineCounts b1 req = pipelineCounts b2 req ∧
      ∀ v, pipelineCounts b1 req = Except.ok v →
        v = req.map (fun col =>
          distinctSeqidCount ((b1.map processQuery).flatten) col) := by
  have hmap : ∀ (c1 c2 : List (List HMMERMatch)),
      List.Forall₂ (fun x y => x.Perm y) c1 c2 →
      (∀ blk ∈ c1, (blk.map aliKey).Nodup) →
      c1.map processQuery = c2.map processQuery := by
    intro c1 c2 hf
    induction hf with
    | nil => intro _; rfl
    | @cons x y l1 l2 hxy hrest ih =>
      intro hk
      simp only [List.map_cons]
      rw [processQuery_eq_of_perm x y hxy (hk x (List.mem_cons_self x l1)),
        ih (fun blk hb => hk blk (List.mem_cons_of_mem x hb))]
  constructor
  · unfold pipelineCounts
    rw [hmap b1 b2 hperm hkeys]
  · intro v hv
    exact cazy_counts_ok _ _ _ hv

/-- Witness instantiating `claim9_amended` at two permuted one-block
inputs with distinct coordinate keys. -/
theorem claim9_witness :
    List.Forall₂ (fun x y => x.Perm y) [[exW1a, exW1b]] [[exW1b, exW1a]] ∧
      (∀ blk ∈ [[exW1a, exW1b]], (blk.map aliKey).Nodup) ∧
      pipelineCounts [[exW1a, exW1b]] ["GH5", "GH7"] =
        pipelineCounts [[exW1b, exW1a]] ["GH5", "GH7"] :=
  ⟨.cons (List.Perm.swap exW1b exW1a []) .nil,
   by decide,
   (claim9_amended [[exW1a, exW1b]] [[exW1b, exW1a]] ["GH5", "GH7"]
     (.cons (List.Perm.swap exW1b exW1a []) .nil) (by decide)).1⟩

/-- C10: `PCAModel.transform` and `Model.predict` never inspect the
column names of the counts matrix: two matrices with the same rows and
the same data (each with as many columns as the model has feature
means) transform and predict to identical results, whatever their
column names. -/
theorem claim10_predict_positional (model : Model) (c1 c2 : Matrix Real)
    (hrows : c1.rows = c2.rows) (harr : c1.arr = c2.arr)
    (hw1 : c1.columns.length = model.pca_model.means.length)
    (hw2 : c2.columns.length = model.pca_model.means.length) :
    model.pca_model.transform c1 = model.pca_model.transform c2 ∧
      model.predict c1 = model.predict c2 := by
  obtain ⟨r1, co1, a1⟩ := c1
  obtain ⟨r2, co2, a2⟩ := c2
  cases hrows
  cases harr
  exact ⟨rfl, rfl⟩

/-- Witness instantiating `claim10_predict_positional` at a concrete
model and two column-renamed copies of one counts matrix. -/
theorem claim10_witness :
    exCounts1.rows = exCounts2.rows ∧ exCounts1.arr = exCounts2.arr ∧
      exCounts1.columns.length = exPCA.means.length ∧
      exModel.predict exCounts1 = exModel.predict exCounts2 :=
  ⟨rfl, rfl, rfl,
   (claim10_predict_positional exModel exCounts1 exCounts2 rfl rfl rfl rfl).2⟩

end Catas
